import Mathlib

/-!
Shallow embedding of the numerical core of the Healpy-Array-Simulation
repository (`src/array_functions.py`), over exact real and complex numbers.

Arrays are modelled as functions `ℕ → _` together with an explicit element
count, and sums over numpy axes become `Finset.range` sums.  The healpy
pixel-to-vector conversion `hp.pix2vec` is an external library call, so it is
taken as an abstract parameter `pix2vec : ℕ → ℕ → ℝ × ℝ × ℝ`
(nside, pixel index ↦ unit vector); both healpix array-factor variants
receive the same conversion, exactly as both call the same `hp.pix2vec`.
-/

open Finset

noncomputable section

namespace ArraySim

/-- Dot product of a 2D position row with a 2D direction column, the entry of
the numpy matrix product `positions @ S`. -/
def dot2 (p s : ℝ × ℝ) : ℝ := p.1 * s.1 + p.2 * s.2

/-- The unit phasor `exp(i·x)` for a real phase `x`: the value of `np.exp(1j*x)`. -/
def cexpi (x : ℝ) : ℂ := Complex.exp ((x : ℝ) * Complex.I)

/-- Numpy's `np.sinc`: the normalized sinc function `sin(πx)/(πx)`, with value 1 at 0. -/
def npsinc (x : ℝ) : ℝ := if x = 0 then 1 else Real.sin (Real.pi * x) / (Real.pi * x)

/-! ## GeometryGenerator: `upa_positions`, `hex_positions` -/

/-- Embedding of `upa_positions` (src/array_functions.py:4-28).
`px = np.tile(np.arange(Nx),Ny)*dx` has entry `k % Nx * dx` and
`py = np.repeat(np.arange(Ny),Nx)*dy` has entry `k / Nx * dy`, for
`k < Nx*Ny`; `np.stack((px,py),1)` pairs them row by row. -/
def upa_positions (Nx Ny : ℕ) (dx dy : ℝ) : List (ℝ × ℝ) :=
  (List.range (Nx * Ny)).map fun k => (((k % Nx : ℕ) : ℝ) * dx, ((k / Nx : ℕ) : ℝ) * dy)

/-- Embedding of `hex_positions` (src/array_functions.py:31-61): two interleaved
rectangular sublattices, the second shifted by `(dx/2, dy/2)`, with
`dy = dx·√3` and `Ny = round(Nx/√3)`.  `np.round` rounds half to even while
Lean's `round` rounds half up, but `Nx/√3` is irrational for `Nx ≥ 1` (and 0
for `Nx = 0`), so it is never a half-integer and the two agree. -/
def hex_positions (Nx : ℕ) (dx : ℝ) : List (ℝ × ℝ) :=
  let dy := dx * Real.sqrt 3
  let Ny := (round ((Nx : ℝ) / Real.sqrt 3)).toNat
  let p1 := upa_positions Nx Ny dx dy
  let p2 := (upa_positions (Nx - 1) (Ny - 1) dx dy).map fun q => (q.1 + dx / 2, q.2 + dy / 2)
  p1 ++ p2

theorem upa_positions_length (Nx Ny : ℕ) (dx dy : ℝ) :
    (upa_positions Nx Ny dx dy).length = Nx * Ny := by
  simp [upa_positions]

theorem upa_positions_getElem? (Nx Ny : ℕ) (dx dy : ℝ) {i j : ℕ} (hi : i < Nx) (hj : j < Ny) :
    (upa_positions Nx Ny dx dy)[j * Nx + i]? = some ((i : ℝ) * dx, (j : ℝ) * dy) := by
  have hk : j * Nx + i < Nx * Ny := by
    calc j * Nx + i < j * Nx + Nx := by omega
    _ = (j + 1) * Nx := by ring
    _ ≤ Ny * Nx := Nat.mul_le_mul_right _ (by omega)
    _ = Nx * Ny := Nat.mul_comm _ _
  have hmod : (j * Nx + i) % Nx = i := by
    rw [Nat.mul_comm j Nx, Nat.mul_add_mod]
    exact Nat.mod_eq_of_lt hi
  have hdiv : (j * Nx + i) / Nx = j := by
    rw [Nat.mul_comm j Nx, Nat.mul_add_div (by omega)]
    simp [Nat.div_eq_of_lt hi]
  rw [upa_positions]
  rw [List.getElem?_map, List.getElem?_range hk]
  simp [hmod, hdiv]

/-- C5: `hexagonal_lattice(nx, dx)` is exactly the concatenation of
`rectangular_lattice(nx, ny, dx, dy)` and `rectangular_lattice(nx-1, ny-1, dx, dy)`
shifted by `(dx/2, dy/2)`, with `dy = dx·√3` and `ny = round(nx/√3)`; the
rectangular lattice places `position(i,j) = (i·dx, j·dy)` with x varying
fastest, and the total element count is `nx·ny + (nx-1)·(ny-1)`. -/
theorem hex_positions_spec (Nx : ℕ) (dx : ℝ) :
    hex_positions Nx dx =
      upa_positions Nx ((round ((Nx : ℝ) / Real.sqrt 3)).toNat) dx (dx * Real.sqrt 3) ++
        (upa_positions (Nx - 1) ((round ((Nx : ℝ) / Real.sqrt 3)).toNat - 1) dx
            (dx * Real.sqrt 3)).map
          (fun q => (q.1 + dx / 2, q.2 + dx * Real.sqrt 3 / 2)) ∧
    (hex_positions Nx dx).length =
      Nx * (round ((Nx : ℝ) / Real.sqrt 3)).toNat +
        (Nx - 1) * ((round ((Nx : ℝ) / Real.sqrt 3)).toNat - 1) ∧
    (∀ Nx' Ny' : ℕ, ∀ dy : ℝ, ∀ i j : ℕ, i < Nx' → j < Ny' →
      (upa_positions Nx' Ny' dx dy)[j * Nx' + i]? = some ((i : ℝ) * dx, (j : ℝ) * dy)) := by
  refine ⟨rfl, ?_, ?_⟩
  · simp [hex_positions, upa_positions_length]
  · intro Nx' Ny' dy i j hi hj
    exact upa_positions_getElem? Nx' Ny' dx dy hi hj

/-! ## ManifoldComputer and ArrayFactorEngine -/

theorem abs_cexpi (x : ℝ) : Complex.abs (cexpi x) = 1 :=
  Complex.abs_exp_ofReal_mul_I x

/-- Embedding of `array_manifold` (src/array_functions.py:64-87):
`np.exp(2j*np.pi*positions@(np.stack((l,m))))`, entry (j,p) of the matrix
product being `positions[j]·(l[p], m[p])`. -/
def array_manifold (l m : ℕ → ℝ) (positions : ℕ → ℝ × ℝ) : ℕ → ℕ → ℂ :=
  fun j p => cexpi (2 * Real.pi * dot2 (positions j) (l p, m p))

/-- Embedding of `array_factor_lm` (src/array_functions.py:211-245): column p of `S - S0`
is `(l p - l0, m p - m0)`, and the sum over axis 0 runs over the J elements. -/
def array_factor_lm (J : ℕ) (l m : ℕ → ℝ) (l0 m0 : ℝ) (positions : ℕ → ℝ × ℝ) : ℕ → ℂ :=
  fun p => ∑ j ∈ range J, cexpi (2 * Real.pi * dot2 (positions j) ((l p, m p) - (l0, m0)))

/-- The first two components of a row of the external healpy conversion
`hp.ang2vec(theta, phi)`, per its documented spherical-to-Cartesian formula:
`(sinθ·cosφ, sinθ·sinφ)` (the third, dropped, component is `cosθ`). -/
def ang2vec_xy (θ φ : ℝ) : ℝ × ℝ := (Real.sin θ * Real.cos φ, Real.sin θ * Real.sin φ)

/-- Embedding of `array_factor_tp` (src/array_functions.py:174-208): directions converted by
`hp.ang2vec(...)[:,:2].T`, then the same phase-sum kernel. -/
def array_factor_tp (J : ℕ) (theta phi : ℕ → ℝ) (theta0 phi0 : ℝ)
    (positions : ℕ → ℝ × ℝ) : ℕ → ℂ :=
  fun p => ∑ j ∈ range J,
    cexpi (2 * Real.pi * dot2 (positions j) (ang2vec_xy (theta p) (phi p) - ang2vec_xy theta0 phi0))

/-- Projection `sx, sy, _ = hp.pix2vec(...)`: the code keeps only the first two
components of the unit vector. -/
def vec_xy (v : ℝ × ℝ × ℝ) : ℝ × ℝ := (v.1, v.2.1)

/-- Embedding of `array_factor_hp` (src/array_functions.py:136-171), with the external
healpy conversion `hp.pix2vec` abstracted as `pix2vec`. -/
def array_factor_hp (pix2vec : ℕ → ℕ → ℝ × ℝ × ℝ) (J nside : ℕ)
    (source_pixels : ℕ → ℕ) (scan_pixel : ℕ) (positions : ℕ → ℝ × ℝ) : ℕ → ℂ :=
  fun p => ∑ j ∈ range J,
    cexpi (2 * Real.pi *
      dot2 (positions j) (vec_xy (pix2vec nside (source_pixels p)) - vec_xy (pix2vec nside scan_pixel)))

/-- Embedding of `array_factor_hpmatrix` (src/array_functions.py:90-133).
`S = np.tile(S,(1,nscan))` makes flat column k the source `k % nsource`;
`S0 = np.repeat(S0,nsource,axis=1)` makes flat column k the scan `k / nsource`;
the flat phase-sum result is reshaped to `(nscan, nsource)`, so entry (s,p)
is flat column `s*nsource + p`. -/
def array_factor_hpmatrix (pix2vec : ℕ → ℕ → ℝ × ℝ × ℝ) (J nside nsource nscan : ℕ)
    (source_pixels scan_pixels : ℕ → ℕ) (positions : ℕ → ℝ × ℝ) : ℕ → ℕ → ℂ :=
  let Sflat : ℕ → ℝ × ℝ := fun k => vec_xy (pix2vec nside (source_pixels (k % nsource)))
  let S0flat : ℕ → ℝ × ℝ := fun k => vec_xy (pix2vec nside (scan_pixels (k / nsource)))
  let Aflat : ℕ → ℂ := fun k =>
    ∑ j ∈ range J, cexpi (2 * Real.pi * dot2 (positions j) (Sflat k - S0flat k))
  fun s p => Aflat (s * nsource + p)

/-- C4: the array-manifold entry (j,p) is `exp(i·2π·(positions[j]·[l[p],m[p]]))`
and has unit magnitude. -/
theorem array_manifold_entry (l m : ℕ → ℝ) (positions : ℕ → ℝ × ℝ) (j p : ℕ) :
    array_manifold l m positions j p =
      Complex.exp (((2 * Real.pi * ((positions j).1 * l p + (positions j).2 * m p) : ℝ) : ℂ) *
        Complex.I) ∧
    Complex.abs (array_manifold l m positions j p) = 1 :=
  ⟨rfl, abs_cexpi _⟩

/-- C3: the array factor with the steering direction equal to the single
source direction is the real value J with zero imaginary part. -/
theorem array_factor_lm_matched (J : ℕ) (l0 m0 : ℝ) (positions : ℕ → ℝ × ℝ) :
    array_factor_lm J (fun _ => l0) (fun _ => m0) l0 m0 positions 0 = (J : ℂ) ∧
    (array_factor_lm J (fun _ => l0) (fun _ => m0) l0 m0 positions 0).im = 0 := by
  have h : array_factor_lm J (fun _ => l0) (fun _ => m0) l0 m0 positions 0 = (J : ℂ) := by
    simp [array_factor_lm, cexpi, dot2, Prod.mk_sub_mk, sub_self]
  exact ⟨h, by rw [h]; simp⟩

/-- C8: the angular variant equals the direction-cosine kernel composed with
the spherical-to-Cartesian projection l = sinθ·cosφ, m = sinθ·sinφ. -/
theorem array_factor_tp_eq_lm (J : ℕ) (theta phi : ℕ → ℝ) (theta0 phi0 : ℝ)
    (positions : ℕ → ℝ × ℝ) (p : ℕ) :
    array_factor_tp J theta phi theta0 phi0 positions p =
      array_factor_lm J (fun k => Real.sin (theta k) * Real.cos (phi k))
        (fun k => Real.sin (theta k) * Real.sin (phi k))
        (Real.sin theta0 * Real.cos phi0) (Real.sin theta0 * Real.sin phi0) positions p :=
  rfl

/-- C9: every value of the single-steer array-factor variants is a sum of J
unit-magnitude terms, so its magnitude is at most J. -/
theorem array_factor_abs_le (J : ℕ) (l m theta phi : ℕ → ℝ) (l0 m0 theta0 phi0 : ℝ)
    (positions : ℕ → ℝ × ℝ) (p : ℕ) :
    Complex.abs (array_factor_lm J l m l0 m0 positions p) ≤ J ∧
    Complex.abs (array_factor_tp J theta phi theta0 phi0 positions p) ≤ J := by
  constructor
  · calc Complex.abs (array_factor_lm J l m l0 m0 positions p)
        ≤ ∑ j ∈ range J, Complex.abs (cexpi (2 * Real.pi *
            dot2 (positions j) ((l p, m p) - (l0, m0)))) := Complex.abs.sum_le _ _
    _ = J := by simp [abs_cexpi]
  · calc Complex.abs (array_factor_tp J theta phi theta0 phi0 positions p)
        ≤ ∑ j ∈ range J, Complex.abs (cexpi (2 * Real.pi *
            dot2 (positions j) (ang2vec_xy (theta p) (phi p) - ang2vec_xy theta0 phi0))) :=
          Complex.abs.sum_le _ _
    _ = J := by simp [abs_cexpi]

/-- C2: row s of the batched multi-steer variant equals the single-steer
variant called with scan pixel s, entry for entry. -/
theorem array_factor_hpmatrix_row (pix2vec : ℕ → ℕ → ℝ × ℝ × ℝ) (J nside nsource nscan : ℕ)
    (source_pixels scan_pixels : ℕ → ℕ) (positions : ℕ → ℝ × ℝ) (s p : ℕ)
    (hs : s < nscan) (hsrc : p < nsource) :
    array_factor_hpmatrix pix2vec J nside nsource nscan source_pixels scan_pixels positions s p =
      array_factor_hp pix2vec J nside source_pixels (scan_pixels s) positions p := by
  have hpos : 0 < nsource := Nat.pos_of_ne_zero (by omega)
  have hmod : (s * nsource + p) % nsource = p := by
    rw [Nat.mul_comm s nsource, Nat.mul_add_mod]
    exact Nat.mod_eq_of_lt hsrc
  have hdiv : (s * nsource + p) / nsource = s := by
    rw [Nat.mul_comm s nsource, Nat.mul_add_div hpos]
    simp [Nat.div_eq_of_lt hsrc]
  simp only [array_factor_hpmatrix, array_factor_hp, hmod, hdiv]

/-- Witness for C2 at a concrete input. -/
theorem array_factor_hpmatrix_row_witness :
    (0 : ℕ) < 1 ∧ (0 : ℕ) < 1 ∧
    array_factor_hpmatrix (fun _ _ => (0, 0, 0)) 1 1 1 1 (fun _ => 0) (fun _ => 0)
        (fun _ => (0, 0)) 0 0 =
      array_factor_hp (fun _ _ => (0, 0, 0)) 1 1 (fun _ => 0) 0 (fun _ => (0, 0)) 0 :=
  ⟨Nat.zero_lt_one, Nat.zero_lt_one,
    array_factor_hpmatrix_row (fun _ _ => (0, 0, 0)) 1 1 1 1 (fun _ => 0) (fun _ => 0)
      (fun _ => (0, 0)) 0 0 Nat.zero_lt_one Nat.zero_lt_one⟩

/-! ## DirectivityCalculator: `linear_directivity` -/

/-- Numpy's `np.diag(v·ones, k)` as an N×N matrix entry: value `v` on the diagonal of
offset `k` (entry (r,c) with `c - r = k`), zero elsewhere. -/
def diagEntry (N : ℕ) (v : ℝ) (k : ℤ) (r c : ℕ) : ℝ :=
  if r < N ∧ c < N ∧ (c : ℤ) - (r : ℤ) = k then v else 0

/-- The index-difference matrix of `linear_directivity`
(src/array_functions.py:270-273): starting from zeros, the loop over
`i in range(1,N)` adds `np.diag(-i·ones, i)` and `np.diag(i·ones, -i)`. -/
def diff_matrix (N : ℕ) (r c : ℕ) : ℝ :=
  ∑ i ∈ Finset.Icc 1 (N - 1), (diagEntry N (-(i : ℝ)) (i : ℤ) r c + diagEntry N (i : ℝ) (-(i : ℤ)) r c)

/-- Numpy's `np.kron(a,a)` of an N-vector with itself, flat entry k. -/
def kron_flat (N : ℕ) (a : ℕ → ℂ) (k : ℕ) : ℂ := a (k / N) * a (k % N)

/-- Embedding of `linear_directivity` (src/array_functions.py:248-279):
`D_num = np.sum(np.abs(a))**2`; `coeff_products = np.kron(a,a).reshape((N,N))`
has entry (i,j) at flat index `i*N+j`; `D_den` sums
`coeff_products*np.sinc(2*d*diff_matrix)` over all entries. -/
def linear_directivity (N : ℕ) (a : ℕ → ℂ) (d : ℝ) : ℂ :=
  (((∑ i ∈ range N, Complex.abs (a i)) ^ 2 : ℝ) : ℂ) /
    ∑ i ∈ range N, ∑ j ∈ range N,
      kron_flat N a (i * N + j) * ((npsinc (2 * d * diff_matrix N i j) : ℝ) : ℂ)

theorem diff_matrix_eq (N : ℕ) {r c : ℕ} (hr : r < N) (hc : c < N) :
    diff_matrix N r c = (r : ℝ) - (c : ℝ) := by
  unfold diff_matrix diagEntry
  rcases lt_trichotomy r c with h | h | h
  · rw [Finset.sum_eq_single (c - r)]
    · rw [if_pos ⟨hr, hc, by omega⟩, if_neg (by omega)]
      have hrc : r ≤ c := h.le
      push_cast [Nat.cast_sub hrc]
      ring
    · intro b _ hb
      rw [if_neg (by omega), if_neg (by omega)]
      ring
    · intro hb
      exact absurd (Finset.mem_Icc.mpr ⟨by omega, by omega⟩) hb
  · subst h
    rw [Finset.sum_eq_zero, sub_self]
    intro i hi
    rw [Finset.mem_Icc] at hi
    rw [if_neg (by omega), if_neg (by omega)]
    ring
  · rw [Finset.sum_eq_single (r - c)]
    · rw [if_neg (by omega), if_pos ⟨hr, hc, by omega⟩]
      have hcr : c ≤ r := h.le
      push_cast [Nat.cast_sub hcr]
      ring
    · intro b _ hb
      rw [if_neg (by omega), if_neg (by omega)]
      ring
    · intro hb
      exact absurd (Finset.mem_Icc.mpr ⟨by omega, by omega⟩) hb

theorem kron_flat_entry (N : ℕ) (a : ℕ → ℂ) {i j : ℕ} (hj : j < N) :
    kron_flat N a (i * N + j) = a i * a j := by
  have hN : 0 < N := by omega
  unfold kron_flat
  have hdiv : (i * N + j) / N = i := by
    rw [Nat.mul_comm i N, Nat.mul_add_div hN]
    simp [Nat.div_eq_of_lt hj]
  have hmod : (i * N + j) % N = j := by
    rw [Nat.mul_comm i N, Nat.mul_add_mod]
    exact Nat.mod_eq_of_lt hj
  rw [hdiv, hmod]

theorem linear_directivity_eq_sum (N : ℕ) (a : ℕ → ℂ) (d : ℝ) :
    linear_directivity N a d =
      (((∑ i ∈ range N, Complex.abs (a i)) ^ 2 : ℝ) : ℂ) /
        ∑ i ∈ range N, ∑ j ∈ range N,
          a i * a j * ((npsinc (2 * d * ((i : ℝ) - (j : ℝ))) : ℝ) : ℂ) := by
  have hden : (∑ i ∈ range N, ∑ j ∈ range N,
      kron_flat N a (i * N + j) * ((npsinc (2 * d * diff_matrix N i j) : ℝ) : ℂ)) =
      ∑ i ∈ range N, ∑ j ∈ range N,
        a i * a j * ((npsinc (2 * d * ((i : ℝ) - (j : ℝ))) : ℝ) : ℂ) := by
    refine Finset.sum_congr rfl fun i hi => Finset.sum_congr rfl fun j hj => ?_
    rw [mem_range] at hi hj
    rw [kron_flat_entry N a hj, diff_matrix_eq N hi hj]
  unfold linear_directivity
  rw [hden]

theorem npsinc_zero : npsinc 0 = 1 := by simp [npsinc]

theorem npsinc_one : npsinc 1 = 0 := by
  rw [npsinc, if_neg one_ne_zero, mul_one, Real.sin_pi, zero_div]

theorem npsinc_neg (x : ℝ) : npsinc (-x) = npsinc x := by
  unfold npsinc
  rcases eq_or_ne x 0 with h | h
  · simp [h]
  · rw [if_neg (by simpa using h), if_neg h, mul_neg, Real.sin_neg, neg_div_neg_eq]

/-- C1 (amended): `linear_directivity(w, d)` equals `(Σ_i |w_i|)²` — not
`|Σ_i w_i|²` — divided by `Σ_{i,j} w_i·w_j·sinc(2d(i−j))`. -/
theorem linear_directivity_formula (N : ℕ) (a : ℕ → ℂ) (d : ℝ) :
    linear_directivity N a d =
      (((∑ i ∈ range N, Complex.abs (a i)) ^ 2 : ℝ) : ℂ) /
        ∑ i ∈ range N, ∑ j ∈ range N,
          a i * a j * ((npsinc (2 * d * ((i : ℝ) - (j : ℝ))) : ℝ) : ℂ) :=
  linear_directivity_eq_sum N a d

/-- The weight vector (1, -1) used as a counterexample input. -/
def altWeights : ℕ → ℂ := fun k => if k = 0 then 1 else -1

/-- C1 counterexample: for weights (1, -1) and spacing 1/2 the code returns 2,
while the claimed formula `|Σ w_i|² / Σ_{i,j} w_i·w_j·sinc(2d(i−j))` gives 0. -/
theorem linear_directivity_claim_false :
    linear_directivity 2 altWeights (1 / 2) ≠
      (((Complex.abs (∑ i ∈ range 2, altWeights i)) ^ 2 : ℝ) : ℂ) /
        ∑ i ∈ range 2, ∑ j ∈ range 2,
          altWeights i * altWeights j * ((npsinc (2 * (1 / 2) * ((i : ℝ) - (j : ℝ))) : ℝ) : ℂ) := by
  have hden : (∑ i ∈ range 2, ∑ j ∈ range 2,
      altWeights i * altWeights j * ((npsinc (2 * (1 / 2) * ((i : ℝ) - (j : ℝ))) : ℝ) : ℂ)) = 2 := by
    have h1 : (2 : ℝ) * (1 / 2) * ((0 : ℝ) - 1) = -1 := by norm_num
    have h2 : (2 : ℝ) * (1 / 2) * ((1 : ℝ) - 0) = 1 := by norm_num
    simp only [Finset.sum_range_succ, Finset.sum_range_zero, altWeights]
    norm_num [h1, h2, npsinc_zero, npsinc_one, npsinc_neg]
  have hnum : (∑ i ∈ range 2, altWeights i) = 0 := by
    simp [Finset.sum_range_succ, altWeights]
  have hL : linear_directivity 2 altWeights (1 / 2) = 2 := by
    rw [linear_directivity_eq_sum, hden]
    have habs : (∑ i ∈ range 2, Complex.abs (altWeights i)) = 2 := by
      norm_num [Finset.sum_range_succ, altWeights]
    rw [habs]
    norm_num
  rw [hL, hnum, hden]
  simp

/-- C7 (amended): a single real nonzero weight gives directivity exactly 1
(the complex or zero single-weight cases do not). -/
theorem linear_directivity_single (r d : ℝ) (hr : r ≠ 0) :
    linear_directivity 1 (fun _ => (r : ℂ)) d = 1 := by
  rw [linear_directivity_eq_sum]
  simp only [Finset.sum_range_one, Nat.cast_zero, sub_self, mul_zero, npsinc_zero,
    Complex.abs_ofReal]
  have hnum : ((|r| ^ 2 : ℝ) : ℂ) = (r : ℂ) * (r : ℂ) := by
    push_cast [sq_abs]
    ring
  rw [hnum, Complex.ofReal_one, mul_one, div_self]
  exact mul_ne_zero (Complex.ofReal_ne_zero.mpr hr) (Complex.ofReal_ne_zero.mpr hr)

/-- Witness for C7 at the concrete weight 2 and spacing 5. -/
theorem linear_directivity_single_witness :
    (2 : ℝ) ≠ 0 ∧ linear_directivity 1 (fun _ => ((2 : ℝ) : ℂ)) 5 = 1 :=
  ⟨two_ne_zero, linear_directivity_single 2 5 two_ne_zero⟩

/-- C7 counterexample: the single complex weight i gives directivity -1, not 1. -/
theorem linear_directivity_single_claim_false :
    linear_directivity 1 (fun _ => Complex.I) 0 ≠ 1 := by
  rw [linear_directivity_eq_sum]
  simp only [Finset.sum_range_one, Nat.cast_zero, sub_self, mul_zero, npsinc_zero,
    Complex.abs_I, Complex.I_mul_I]
  norm_num

/-! ## DirectivityCalculator: `radiated_power`, `numerical_directivity` -/

/-- Numpy's `np.max` over the nphi×ntheta entries of a 2D array (0 for the degenerate
empty shape, on which `np.max` raises). -/
def npmax (nphi ntheta : ℕ) (P : ℕ → ℕ → ℝ) : ℝ :=
  if h : (range nphi ×ˢ range ntheta).Nonempty then
    (range nphi ×ˢ range ntheta).sup' h fun q => P q.1 q.2
  else 0

/-- Embedding of `radiated_power` (src/array_functions.py:282-305): `dt = theta[1]-theta[0]`,
`dp = phi[1]-phi[0]`, then `np.sum(np.sum(PowerPattern*np.sin(theta),1)*dt,0)*dp`. -/
def radiated_power (nphi ntheta : ℕ) (P : ℕ → ℕ → ℝ) (theta phi : ℕ → ℝ) : ℝ :=
  (∑ i ∈ range nphi, (∑ j ∈ range ntheta, P i j * Real.sin (theta j)) * (theta 1 - theta 0)) *
    (phi 1 - phi 0)

/-- Embedding of `numerical_directivity` (src/array_functions.py:308-330):
`4*np.pi*np.max(PowerPattern) / radiated_power(...)`. -/
def numerical_directivity (nphi ntheta : ℕ) (P : ℕ → ℕ → ℝ) (theta phi : ℕ → ℝ) : ℝ :=
  4 * Real.pi * npmax nphi ntheta P / radiated_power nphi ntheta P theta phi

/-- Embedding of `radiated_power` over explicit coordinate lists: the reads `theta[1]`,
`theta[0]`, `phi[1]`, `phi[0]` and the per-sample reads of `theta` under
`np.sin` are all fallible, in the order the code performs them. -/
def radiated_power_list (nphi : ℕ) (P : ℕ → ℕ → ℝ) (theta phi : List ℝ) : Option ℝ := do
  let t1 ← theta[1]?
  let t0 ← theta[0]?
  let p1 ← phi[1]?
  let p0 ← phi[0]?
  return (∑ i ∈ range nphi,
      (∑ j ∈ range theta.length, P i j * Real.sin (theta.getD j 0)) * (t1 - t0)) * (p1 - p0)

/-- Embedding of `numerical_directivity` over explicit coordinate lists. -/
def numerical_directivity_list (nphi ntheta : ℕ) (P : ℕ → ℕ → ℝ) (theta phi : List ℝ) :
    Option ℝ :=
  (radiated_power_list nphi P theta phi).map fun prad =>
    4 * Real.pi * npmax nphi ntheta P / prad

/-- C6: numerical directivity is `4π·max(PowerPattern)` over the
rectangle-rule radiated power whose Δtheta and Δphi come only from the gap
between the first two samples; `npmax` is the greatest entry of the pattern,
and the result depends on `phi` only through `phi 1 - phi 0` and on `theta`
only through its first `ntheta` samples and the first gap. -/
theorem numerical_directivity_spec (nphi ntheta : ℕ) (P : ℕ → ℕ → ℝ) (theta phi : ℕ → ℝ)
    (h1 : 0 < nphi) (h2 : 0 < ntheta) :
    numerical_directivity nphi ntheta P theta phi =
      4 * Real.pi * npmax nphi ntheta P /
        ((∑ i ∈ range nphi,
            (∑ j ∈ range ntheta, P i j * Real.sin (theta j)) * (theta 1 - theta 0)) *
          (phi 1 - phi 0)) ∧
    (∀ i ∈ range nphi, ∀ j ∈ range ntheta, P i j ≤ npmax nphi ntheta P) ∧
    (∃ i ∈ range nphi, ∃ j ∈ range ntheta, npmax nphi ntheta P = P i j) ∧
    (∀ phi' : ℕ → ℝ, phi' 1 - phi' 0 = phi 1 - phi 0 →
      numerical_directivity nphi ntheta P theta phi' =
        numerical_directivity nphi ntheta P theta phi) := by
  have hne : (range nphi ×ˢ range ntheta).Nonempty :=
    ⟨(0, 0), Finset.mem_product.mpr ⟨mem_range.mpr h1, mem_range.mpr h2⟩⟩
  have hmax : npmax nphi ntheta P = (range nphi ×ˢ range ntheta).sup' hne fun q => P q.1 q.2 := by
    rw [npmax, dif_pos hne]
  refine ⟨rfl, ?_, ?_, ?_⟩
  · intro i hi j hj
    rw [hmax]
    have hmem : (i, j) ∈ range nphi ×ˢ range ntheta := Finset.mem_product.mpr ⟨hi, hj⟩
    exact Finset.le_sup' (fun q : ℕ × ℕ => P q.1 q.2) hmem
  · obtain ⟨q, hq, hval⟩ := Finset.exists_mem_eq_sup' hne fun q : ℕ × ℕ => P q.1 q.2
    obtain ⟨hq1, hq2⟩ := Finset.mem_product.mp hq
    exact ⟨q.1, hq1, q.2, hq2, by rw [hmax, hval]⟩
  · intro phi' hphi
    unfold numerical_directivity radiated_power
    rw [hphi]

/-- Witness for C6 at a concrete input. -/
theorem numerical_directivity_spec_witness :
    numerical_directivity 1 1 (fun _ _ => 1) (fun _ => 0) (fun _ => 0) =
      4 * Real.pi * npmax 1 1 (fun _ _ => 1) /
        ((∑ _i ∈ range 1, (∑ _j ∈ range 1, (1 : ℝ) * Real.sin 0) * ((0 : ℝ) - 0)) *
          ((0 : ℝ) - 0)) :=
  (numerical_directivity_spec 1 1 (fun _ _ => 1) (fun _ => 0) (fun _ => 0) one_pos one_pos).1

/-- C10: the list-level quadrature reads `theta[1]` and `phi[1]`
unconditionally, so it returns a value exactly when both coordinate lists have
at least two samples, and then it agrees with the total model; with a shorter
list it fails instead of returning a value. -/
theorem radiated_power_list_total (nphi ntheta : ℕ) (P : ℕ → ℕ → ℝ) (theta phi : List ℝ) :
    ((radiated_power_list nphi P theta phi).isSome ↔ 2 ≤ theta.length ∧ 2 ≤ phi.length) ∧
    ((numerical_directivity_list nphi ntheta P theta phi).isSome ↔
      2 ≤ theta.length ∧ 2 ≤ phi.length) ∧
    (2 ≤ theta.length → 2 ≤ phi.length →
      radiated_power_list nphi P theta phi =
        some (radiated_power nphi theta.length P (fun j => theta.getD j 0)
          (fun j => phi.getD j 0))) := by
  by_cases h1 : 2 ≤ theta.length
  · have ht1 : theta[1]? = some (theta.getD 1 0) := by
      rw [List.getElem?_eq_getElem (by omega), List.getD_eq_getElem theta 0 (by omega)]
    have ht0 : theta[0]? = some (theta.getD 0 0) := by
      rw [List.getElem?_eq_getElem (by omega), List.getD_eq_getElem theta 0 (by omega)]
    by_cases h2 : 2 ≤ phi.length
    · have hp1 : phi[1]? = some (phi.getD 1 0) := by
        rw [List.getElem?_eq_getElem (by omega), List.getD_eq_getElem phi 0 (by omega)]
      have hp0 : phi[0]? = some (phi.getD 0 0) := by
        rw [List.getElem?_eq_getElem (by omega), List.getD_eq_getElem phi 0 (by omega)]
      have hval : radiated_power_list nphi P theta phi =
          some ((∑ i ∈ range nphi,
            (∑ j ∈ range theta.length, P i j * Real.sin (theta.getD j 0)) *
              (theta.getD 1 0 - theta.getD 0 0)) * (phi.getD 1 0 - phi.getD 0 0)) := by
        simp only [radiated_power_list, ht1, ht0, hp1, hp0, Option.bind_eq_bind,
          Option.some_bind, Option.pure_def]
      refine ⟨?_, ?_, ?_⟩
      · rw [hval]
        simp only [Option.isSome_some]
        exact iff_of_true trivial ⟨h1, h2⟩
      · rw [numerical_directivity_list, hval]
        simp only [Option.map_some', Option.isSome_some]
        exact iff_of_true trivial ⟨h1, h2⟩
      · intro _ _
        rw [hval]
        rfl
    · have hp : phi[1]? = none := List.getElem?_eq_none (by omega)
      have hval : radiated_power_list nphi P theta phi = none := by
        simp only [radiated_power_list, ht1, ht0, hp, Option.bind_eq_bind, Option.some_bind,
          Option.none_bind]
      refine ⟨?_, ?_, ?_⟩
      · rw [hval]
        simp only [Option.isSome_none]
        exact iff_of_false (by simp) fun hcon => h2 hcon.2
      · rw [numerical_directivity_list, hval]
        simp only [Option.map_none', Option.isSome_none]
        exact iff_of_false (by simp) fun hcon => h2 hcon.2
      · intro _ hcon
        exact absurd hcon h2
  · have ht : theta[1]? = none := List.getElem?_eq_none (by omega)
    have hval : radiated_power_list nphi P theta phi = none := by
      simp only [radiated_power_list, ht, Option.bind_eq_bind, Option.none_bind]
    refine ⟨?_, ?_, ?_⟩
    · rw [hval]
      simp only [Option.isSome_none]
      exact iff_of_false (by simp) fun hcon => h1 hcon.1
    · rw [numerical_directivity_list, hval]
      simp only [Option.map_none', Option.isSome_none]
      exact iff_of_false (by simp) fun hcon => h1 hcon.1
    · intro hcon _
      exact absurd hcon h1

end ArraySim
